import Mathlib

/-!
# Knight's Tour (`src/app.js`): move legality, placement, undo, reset, status

A shallow embedding of the game logic of `src/app.js`.

* Coordinates and the board size are JavaScript numbers that hold integers; they are
  modelled as `Int`. The sums `r + dr`, `c + dc` of line 104 are binary64 additions:
  `computeNextMovesF64` rounds them to the nearest binary64 number, `computeNextMoves`
  takes them exactly, and the two agree whenever `size ≤ 2^53`, or `r ≤ 2^53 - 2` and
  `c ≤ 2^53 - 2` (`computeNextMovesF64_eq`). The state operations use `computeNextMoves`.
* `keyOf` builds the template string `r,c`; it is modelled with the decimal rendering
  `toString : Int → String`, which is how JavaScript renders integers of magnitude below
  `10^21`.
* `state.visited` (a `Set` of keys) is a list of keys in insertion order, `state.moveIndex`
  (a `Map` from key to move number) is a list of entries in insertion order; `add`, `set`
  and `delete` are modelled with the insertion-order behaviour of `Set` and `Map`.
* Canvas drawing, overlays and toasts are not modelled, except for the status branch chain
  at the end of `render` and the "Invalid move." toast of `placeOrMove`.
-/

namespace KnightsTour

/-! ## Data model -/

/-- A board position, the `Pos` typedef: an object with fields `r` and `c`. -/
structure Pos where
  r : Int
  c : Int
deriving DecidableEq, Repr

/-- The key of a square (`keyOf`, line 29): row, a comma, column. -/
def keyOf (r c : Int) : String :=
  toString r ++ "," ++ toString c

/-- Membership test of a `Set` of keys (`visited.has`). -/
def setHas (s : List String) (k : String) : Bool :=
  decide (k ∈ s)

/-- Insertion into a `Set` of keys (`visited.add`): a key already present stays where it is,
a new key goes last. -/
def setAdd (s : List String) (k : String) : List String :=
  if k ∈ s then s else s ++ [k]

/-- Removal from a `Set` of keys (`visited.delete`). -/
def setDelete (s : List String) (k : String) : List String :=
  s.filter (fun x => decide (x ≠ k))

/-- Lookup in a `Map` from keys to move numbers (`moveIndex.get`). -/
def mapGet (m : List (String × Nat)) (k : String) : Option Nat :=
  (m.find? (fun e => decide (e.1 = k))).map Prod.snd

/-- Assignment in a `Map` (`moveIndex.set`): an existing entry is overwritten in place, a new
entry goes last. -/
def mapSet (m : List (String × Nat)) (k : String) (v : Nat) : List (String × Nat) :=
  if m.any (fun e => decide (e.1 = k)) then
    m.map (fun e => if e.1 = k then (k, v) else e)
  else m ++ [(k, v)]

/-- Removal from a `Map` (`moveIndex.delete`). -/
def mapDelete (m : List (String × Nat)) (k : String) : List (String × Nat) :=
  m.filter (fun e => decide (e.1 ≠ k))

/-- The mutable `state` object (lines 33-41), without the display preference
`visitedStyle`, which no operation below reads or writes. -/
structure State where
  size : Int
  current : Option Pos
  history : List Pos
  visited : List String
  moveIndex : List (String × Nat)
  nextMoves : List String
deriving DecidableEq, Repr

/-- The state at start-up: nothing placed yet, on a board of the given size. -/
def init (size : Int) : State :=
  { size := size, current := none, history := [], visited := [], moveIndex := [],
    nextMoves := [] }

/-! ## Logic -/

/-- The eight offsets, in the order of the array literal of line 101. -/
def deltas : List (Int × Int) :=
  [(2, 1), (1, 2), (-1, 2), (-2, 1), (-2, -1), (-1, -2), (1, -2), (2, -1)]

/-- One iteration of the loop body of `computeNextMoves` (lines 104-108), with the two sums
taken exactly. -/
def nextMovesStep (size r c : Int) (visited : List String) (res : List String)
    (d : Int × Int) : List String :=
  let nr := r + d.1
  let nc := c + d.2
  if 0 ≤ nr ∧ nr < size ∧ 0 ≤ nc ∧ nc < size then
    let k := keyOf nr nc
    if !setHas visited k then res ++ [k] else res
  else res

/-- The function `computeNextMoves` (lines 100-111): a loop over `deltas` that pushes the
key of every candidate inside the board that is not visited. The sums are exact; see
`computeNextMovesF64` for the loop with binary64 sums. -/
def computeNextMoves (size r c : Int) (visited : List String) : List String :=
  deltas.foldl (nextMovesStep size r c visited) []

/-- The spacing of binary64 numbers around a natural number `n`: 1 below `2^53`, doubling
with every further bit. The fuel 971 used below covers every finite binary64 magnitude
(`2^53 * 2^971 = 2^1024`). -/
def f64Quantum : Nat → Nat → Nat
  | 0, _ => 1
  | fuel + 1, n => if n < 9007199254740992 then 1 else 2 * f64Quantum fuel (n / 2)

/-- A natural number rounded to the nearest binary64 number (53-bit significand), ties to
the even significand. -/
def f64RoundNat (n : Nat) : Nat :=
  let q := f64Quantum 971 n
  let m := n / q
  let rem := n % q
  if 2 * rem < q then m * q
  else if q < 2 * rem then (m + 1) * q
  else if m % 2 = 0 then m * q else (m + 1) * q

/-- An integer rounded to the nearest binary64 number, ties to even: the value of a binary64
addition whose exact result is that integer. -/
def f64Round (x : Int) : Int :=
  if 0 ≤ x then (f64RoundNat x.toNat : Int) else -(f64RoundNat (-x).toNat : Int)

/-- One iteration of the loop body of `computeNextMoves` (lines 104-108), with the two sums
rounded as binary64 additions. -/
def nextMovesStepF64 (size r c : Int) (visited : List String) (res : List String)
    (d : Int × Int) : List String :=
  let nr := f64Round (r + d.1)
  let nc := f64Round (c + d.2)
  if 0 ≤ nr ∧ nr < size ∧ 0 ≤ nc ∧ nc < size then
    let k := keyOf nr nc
    if !setHas visited k then res ++ [k] else res
  else res

/-- The function `computeNextMoves` (lines 100-111) with binary64 sums. -/
def computeNextMovesF64 (size r c : Int) (visited : List String) : List String :=
  deltas.foldl (nextMovesStepF64 size r c visited) []

/-- What `placeOrMove` did besides changing the state: it either re-rendered, or showed the
"Invalid move." toast and returned. -/
inductive Feedback where
  | rendered
  | invalidMove
deriving DecidableEq, Repr

/-- The five assignments shared by both accepting branches of `placeOrMove`
(lines 248-252 and 260-264). -/
def applyMove (s : State) (r c : Int) : State :=
  let k := keyOf r c
  let history := s.history ++ [{ r := r, c := c }]
  let visited := setAdd s.visited k
  let moveIndex := mapSet s.moveIndex k history.length
  { size := s.size
    current := some { r := r, c := c }
    history := history
    visited := visited
    moveIndex := moveIndex
    nextMoves := computeNextMoves s.size r c visited }

/-- The function `placeOrMove` (lines 245-266). -/
def placeOrMove (s : State) (r c : Int) : State × Feedback :=
  let k := keyOf r c
  match s.current with
  | none => (applyMove s r c, Feedback.rendered)
  | some _ =>
    if !(s.nextMoves.contains k) then (s, Feedback.invalidMove)
    else (applyMove s r c, Feedback.rendered)

/-- The function `undo` (lines 268-285). The branch on `history.length === 0` after the pop
is the `none` case of `getLast?`. -/
def undo (s : State) : State :=
  if s.history.length = 0 then s
  else
    let history := s.history.dropLast
    let visited :=
      match s.history.getLast? with
      | some last => setDelete s.visited (keyOf last.r last.c)
      | none => s.visited
    let moveIndex :=
      match s.history.getLast? with
      | some last => mapDelete s.moveIndex (keyOf last.r last.c)
      | none => s.moveIndex
    match history.getLast? with
    | none =>
      { size := s.size, current := none, history := history, visited := visited,
        moveIndex := moveIndex, nextMoves := [] }
    | some cur =>
      { size := s.size, current := some { r := cur.r, c := cur.c }, history := history,
        visited := visited, moveIndex := moveIndex,
        nextMoves := computeNextMoves s.size cur.r cur.c visited }

/-- The function `reset` (lines 229-241); `sel` is the number read from the size selector
(`Number(sizeSel.value)`), used only when `clearSize` is true. -/
def reset (s : State) (clearSize : Bool) (sel : Int) : State :=
  { size := if clearSize then sel else s.size
    current := none, history := [], visited := [], moveIndex := [], nextMoves := [] }

/-- The function `startNew` (line 243). -/
def startNew (s : State) (sel : Int) : State :=
  reset s true sel

/-- The change handler of the size selector (line 297): assign the size, then `startNew`. -/
def onSizeChange (s : State) (sel : Int) : State :=
  startNew { s with size := sel } sel

/-- The clamp of the pointer handler (lines 292-293): `max(0, min(size - 1, v))`, where `v`
is the floored quotient of the pointer offset by the cell width. -/
def clampCell (size v : Int) : Int :=
  max 0 (min (size - 1) v)

/-- The pointer handler (lines 288-295): the only caller of `placeOrMove`; `fr` and `fc` are
the floored row and column quotients. -/
def onPointerDown (s : State) (fr fc : Int) : State × Feedback :=
  placeOrMove s (clampCell s.size fr) (clampCell s.size fc)

/-- The four outcomes of the status branch chain of `render`. -/
inductive Status where
  | empty
  | won
  | stuck
  | inProgress
deriving DecidableEq, Repr

/-- The status branch chain at the end of `render` (lines 210-223). -/
def renderStatus (s : State) : Status :=
  let total : Int := s.size * s.size
  let visitedCount : Int := (s.visited.length : Int)
  if s.current.isNone then Status.empty
  else if visitedCount = total then Status.won
  else if s.nextMoves.length = 0 then Status.stuck
  else Status.inProgress

/-! ## Runs and reachable states -/

/-- A square lies on the board of the given size: both coordinates are in `[0, size)`. -/
def onBoard (size r c : Int) : Prop :=
  0 ≤ r ∧ r < size ∧ 0 ≤ c ∧ c < size

instance (size r c : Int) : Decidable (onBoard size r c) := by
  unfold onBoard; infer_instance

/-- The knight offsets as the specification words them: `(±1, ±2)` and `(±2, ±1)`. -/
def knightOffset (dr dc : Int) : Prop :=
  ((dr = 1 ∨ dr = -1) ∧ (dc = 2 ∨ dc = -2)) ∨ ((dr = 2 ∨ dr = -2) ∧ (dc = 1 ∨ dc = -1))

instance (dr dc : Int) : Decidable (knightOffset dr dc) := by
  unfold knightOffset; infer_instance

/-- The second position is a knight move away from the first. -/
def knightStep (p q : Pos) : Prop :=
  knightOffset (q.r - p.r) (q.c - p.c)

instance (p q : Pos) : Decidable (knightStep p q) := by
  unfold knightStep; infer_instance

/-- The key of a position. -/
def posKey (p : Pos) : String :=
  keyOf p.r p.c

/-- The candidate that one offset contributes to `computeNextMoves`, if any. -/
def candidate (size r c : Int) (visited : List String) (d : Int × Int) : Option String :=
  if onBoard size (r + d.1) (c + d.2) ∧ keyOf (r + d.1) (c + d.2) ∉ visited then
    some (keyOf (r + d.1) (c + d.2))
  else none

/-- The move numbers `n, n+1, ...` attached to a list of keys in order. -/
def indexFrom : Nat → List String → List (String × Nat)
  | _, [] => []
  | n, k :: ks => (k, n) :: indexFrom (n + 1) ks

/-- A sequence of `placeOrMove` calls, all of which must be accepted; `none` as soon as one
call is reported invalid. -/
def playAll : State → List (Int × Int) → Option State
  | s, [] => some s
  | s, (r, c) :: rest =>
    match placeOrMove s r c with
    | (s', Feedback.rendered) => playAll s' rest
    | (_, Feedback.invalidMove) => none

/-- States reachable from a start-up state by `placeOrMove` (any integer arguments), `undo`
`reset` (with or without a size change) and a change of the size selector. -/
inductive Reachable : State → Prop where
  | init (n : Int) : Reachable (init n)
  | place (s : State) (r c : Int) : Reachable s → Reachable (placeOrMove s r c).1
  | undo (s : State) : Reachable s → Reachable (undo s)
  | reset (s : State) (clearSize : Bool) (sel : Int) : Reachable s →
      Reachable (reset s clearSize sel)
  | sizeChange (s : State) (sel : Int) : Reachable s → Reachable (onSizeChange s sel)

/-- States reachable from a start-up state by `placeOrMove` on squares of the board, `undo`,
`reset` and a change of the size selector. The pointer handler (lines 288-295) clamps the clicked cell into the board, so
these are the states the page can reach. -/
inductive ReachableOn : State → Prop where
  | init (n : Int) : ReachableOn (init n)
  | place (s : State) (r c : Int) : ReachableOn s → onBoard s.size r c →
      ReachableOn (placeOrMove s r c).1
  | undo (s : State) : ReachableOn s → ReachableOn (undo s)
  | reset (s : State) (clearSize : Bool) (sel : Int) : ReachableOn s →
      ReachableOn (reset s clearSize sel)
  | sizeChange (s : State) (sel : Int) : ReachableOn s → ReachableOn (onSizeChange s sel)

/-- The invariant of the state object: `visited` and `moveIndex` follow `history` in
lockstep, no key repeats, `current` is the last history entry, consecutive entries are a
knight move apart, and `nextMoves` is what `computeNextMoves` gives for the current
square. -/
structure Inv (s : State) : Prop where
  visited_eq : s.visited = s.history.map posKey
  nodup : s.visited.Nodup
  index_eq : s.moveIndex = indexFrom 1 s.visited
  current_eq : s.current = s.history.getLast?
  chain : List.Chain' knightStep s.history
  next_eq : s.nextMoves =
    match s.current with
    | none => []
    | some p => computeNextMoves s.size p.r p.c s.visited

/-- The state after a sequence of `placeOrMove` calls, whether accepted or not. -/
def playFrom (s : State) (sq : List (Int × Int)) : State :=
  sq.foldl (fun st p => (placeOrMove st p.1 p.2).1) s

/-- An opening outside the 3×3 board followed by the eight border squares. -/
def offBoardRun3 : List (Int × Int) :=
  [(-2, 1), (0, 0), (1, 2), (2, 0), (0, 1), (2, 2), (1, 0), (0, 2), (2, 1)]

/-- Size 5 with the knight placed in the corner `(0, 0)`. -/
def corner5 : State :=
  (placeOrMove (init 5) 0 0).1

/-- Size 5 after placing at `(0, 0)` and moving to `(2, 1)`. -/
def twoMoves5 : State :=
  (placeOrMove corner5 2 1).1

/-- Size 3 with the knight placed in the centre `(1, 1)`. -/
def centre3 : State :=
  (placeOrMove (init 3) 1 1).1

/-- The specification's condition for status Empty: current unset. -/
def specEmpty (s : State) : Prop :=
  s.current = none

/-- The specification's condition for status InProgress: current set, next-moves
non-empty, `visited.size < size²`. -/
def specInProgress (s : State) : Prop :=
  s.current ≠ none ∧ s.nextMoves ≠ [] ∧ (s.visited.length : Int) < s.size * s.size

/-- The specification's condition for status Won: `visited.size == size²`. -/
def specWon (s : State) : Prop :=
  (s.visited.length : Int) = s.size * s.size

/-- The specification's condition for status Stuck: current set, next-moves empty,
`visited.size < size²`. -/
def specStuck (s : State) : Prop :=
  s.current ≠ none ∧ s.nextMoves = [] ∧ (s.visited.length : Int) < s.size * s.size

/-- A 5×5 knight's tour, starting in the corner `(0, 0)`. -/
def tour5 : List (Int × Int) :=
  [(0, 0), (1, 2), (0, 4), (2, 3), (4, 4), (3, 2), (4, 0), (2, 1), (0, 2), (1, 4),
   (3, 3), (4, 1), (2, 0), (0, 1), (1, 3), (3, 4), (4, 2), (3, 0), (1, 1), (0, 3),
   (2, 4), (4, 3), (3, 1), (1, 0), (2, 2)]

/-- The value of a decimal digit character. -/
def digitVal (ch : Char) : Nat :=
  ch.toNat - 48

/-- The number denoted by a list of decimal digit characters. -/
def decodeNat (l : List Char) : Nat :=
  l.foldl (fun acc ch => 10 * acc + digitVal ch) 0

/-- The characters of the decimal rendering of an integer. -/
def intChars : Int → List Char
  | Int.ofNat m => Nat.toDigits 10 m
  | Int.negSucc m => '-' :: Nat.toDigits 10 (m + 1)

/-! ## Keys are injective

`keyOf` renders both coordinates in decimal, so two squares with the same key are the same
square. The proof decodes the digits produced by `Nat.toDigitsCore`. -/

theorem digitVal_digitChar (d : Nat) (h : d < 10) : digitVal (Nat.digitChar d) = d := by
  interval_cases d <;> rfl

theorem digitChar_ne_sep (d : Nat) (h : d < 10) :
    Nat.digitChar d ≠ ',' ∧ Nat.digitChar d ≠ '-' := by
  interval_cases d <;> decide

theorem toDigitsCore_acc (fuel : Nat) :
    ∀ (n : Nat) (ds : List Char),
      Nat.toDigitsCore 10 fuel n ds = Nat.toDigitsCore 10 fuel n [] ++ ds := by
  induction fuel with
  | zero => intro n ds; simp [Nat.toDigitsCore]
  | succ fuel ih =>
    intro n ds
    simp only [Nat.toDigitsCore]
    by_cases h : n / 10 = 0
    · simp [h]
    · simp only [h, if_false]
      rw [ih (n / 10) (Nat.digitChar (n % 10) :: ds), ih (n / 10) [Nat.digitChar (n % 10)]]
      simp

theorem decodeNat_snoc (l : List Char) (ch : Char) :
    decodeNat (l ++ [ch]) = 10 * decodeNat l + digitVal ch := by
  simp [decodeNat, List.foldl_append]

theorem decodeNat_toDigitsCore (fuel : Nat) :
    ∀ n : Nat, n < fuel → decodeNat (Nat.toDigitsCore 10 fuel n []) = n := by
  induction fuel with
  | zero => intro n h; omega
  | succ fuel ih =>
    intro n hn
    simp only [Nat.toDigitsCore]
    by_cases h : n / 10 = 0
    · simp only [h, if_true]
      have h10 : n % 10 < 10 := Nat.mod_lt _ (by decide)
      have : decodeNat [Nat.digitChar (n % 10)] = n % 10 := by
        simpa [decodeNat] using digitVal_digitChar (n % 10) h10
      rw [this]; omega
    · simp only [h, if_false]
      rw [toDigitsCore_acc fuel (n / 10) [Nat.digitChar (n % 10)], decodeNat_snoc,
        ih (n / 10) (by omega), digitVal_digitChar (n % 10) (Nat.mod_lt _ (by decide))]
      omega

theorem toDigitsCore_no_sep (fuel : Nat) :
    ∀ (n : Nat) (ch : Char), ch ∈ Nat.toDigitsCore 10 fuel n [] → ch ≠ ',' ∧ ch ≠ '-' := by
  induction fuel with
  | zero => intro n ch h; simp [Nat.toDigitsCore] at h
  | succ fuel ih =>
    intro n ch hch
    simp only [Nat.toDigitsCore] at hch
    by_cases h : n / 10 = 0
    · simp only [h, if_true, List.mem_singleton] at hch
      subst hch
      exact digitChar_ne_sep _ (Nat.mod_lt _ (by decide))
    · simp only [h, if_false] at hch
      rw [toDigitsCore_acc fuel (n / 10) [Nat.digitChar (n % 10)]] at hch
      rcases List.mem_append.1 hch with h1 | h1
      · exact ih _ _ h1
      · rw [List.mem_singleton] at h1
        subst h1
        exact digitChar_ne_sep _ (Nat.mod_lt _ (by decide))

theorem toDigits_ne_nil (n : Nat) : Nat.toDigits 10 n ≠ [] := by
  unfold Nat.toDigits
  simp only [Nat.toDigitsCore]
  by_cases h : n / 10 = 0
  · simp [h]
  · simp only [h, if_false]
    rw [toDigitsCore_acc]
    simp

theorem toDigits_injective (m n : Nat) (h : Nat.toDigits 10 m = Nat.toDigits 10 n) :
    m = n := by
  have hm := decodeNat_toDigitsCore (m + 1) m (by omega)
  have hn := decodeNat_toDigitsCore (n + 1) n (by omega)
  unfold Nat.toDigits at h
  rw [h] at hm
  omega

theorem toDigits_head_ne_minus (n : Nat) (l : List Char) :
    Nat.toDigits 10 n ≠ '-' :: l := by
  intro h
  have hmem : '-' ∈ Nat.toDigitsCore 10 (n + 1) n [] := by
    have : Nat.toDigitsCore 10 (n + 1) n [] = '-' :: l := h
    rw [this]; simp
  exact (toDigitsCore_no_sep _ _ _ hmem).2 rfl

theorem intChars_injective (a b : Int) (h : intChars a = intChars b) : a = b := by
  cases a with
  | ofNat m =>
    cases b with
    | ofNat n => simp only [intChars] at h; rw [toDigits_injective m n h]
    | negSucc n => simp only [intChars] at h; exact absurd h (toDigits_head_ne_minus _ _)
  | negSucc m =>
    cases b with
    | ofNat n => simp only [intChars] at h; exact absurd h.symm (toDigits_head_ne_minus _ _)
    | negSucc n =>
      simp only [intChars, List.cons.injEq, true_and] at h
      have := toDigits_injective _ _ h
      have hmn : m = n := by omega
      rw [hmn]

theorem intChars_no_comma (a : Int) : ',' ∉ intChars a := by
  intro h
  cases a with
  | ofNat m => exact (toDigitsCore_no_sep _ _ _ h).1 rfl
  | negSucc m =>
    simp only [intChars, List.mem_cons] at h
    rcases h with h | h
    · exact absurd h (by decide)
    · exact (toDigitsCore_no_sep _ _ _ h).1 rfl

theorem toString_data (a : Int) : (toString a).data = intChars a := by
  cases a <;> rfl

theorem keyOf_data (r c : Int) : (keyOf r c).data = intChars r ++ ',' :: intChars c := by
  simp [keyOf, toString_data]

theorem split_at_sep {α : Type} (a : α) :
    ∀ (l₁ l₂ m₁ m₂ : List α), a ∉ l₁ → a ∉ m₁ → l₁ ++ a :: l₂ = m₁ ++ a :: m₂ →
      l₁ = m₁ ∧ l₂ = m₂ := by
  intro l₁
  induction l₁ with
  | nil =>
    intro l₂ m₁ m₂ _ hm h
    cases m₁ with
    | nil => simpa using h
    | cons x m₁ =>
      simp only [List.nil_append, List.cons_append, List.cons.injEq] at h
      exact absurd (h.1 ▸ List.mem_cons_self _ _) hm
  | cons y l₁ ih =>
    intro l₂ m₁ m₂ hl hm h
    cases m₁ with
    | nil =>
      simp only [List.nil_append, List.cons_append, List.cons.injEq] at h
      exact absurd (h.1 ▸ List.mem_cons_self _ _) hl
    | cons x m₁ =>
      simp only [List.cons_append, List.cons.injEq] at h
      have := ih l₂ m₁ m₂ (fun hh => hl (List.mem_cons_of_mem _ hh))
        (fun hh => hm (List.mem_cons_of_mem _ hh)) h.2
      exact ⟨by rw [h.1, this.1], this.2⟩

/-- Two squares with the same key are the same square. -/
theorem keyOf_inj {r c r' c' : Int} (h : keyOf r c = keyOf r' c') : r = r' ∧ c = c' := by
  have hd : (keyOf r c).data = (keyOf r' c').data := by rw [h]
  rw [keyOf_data, keyOf_data] at hd
  have := split_at_sep ',' _ _ _ _ (intChars_no_comma r) (intChars_no_comma r') hd
  exact ⟨intChars_injective _ _ this.1, intChars_injective _ _ this.2⟩

/-! ## `computeNextMoves` -/

theorem mem_deltas_iff (dr dc : Int) : (dr, dc) ∈ deltas ↔ knightOffset dr dc := by
  simp only [deltas, knightOffset, List.mem_cons, Prod.mk.injEq, List.mem_singleton,
    List.not_mem_nil, or_false]
  constructor
  · intro h
    rcases h with h | h | h | h | h | h | h | h <;> (obtain ⟨h1, h2⟩ := h; subst h1; subst h2; decide)
  · intro h
    rcases h with ⟨h1 | h1, h2 | h2⟩ | ⟨h1 | h1, h2 | h2⟩ <;> (subst h1; subst h2; decide)

theorem nextMovesStep_eq (size r c : Int) (visited res : List String) (d : Int × Int) :
    nextMovesStep size r c visited res d
      = res ++ (candidate size r c visited d).toList := by
  unfold nextMovesStep candidate onBoard setHas
  by_cases hb : 0 ≤ r + d.1 ∧ r + d.1 < size ∧ 0 ≤ c + d.2 ∧ c + d.2 < size
  · by_cases hv : keyOf (r + d.1) (c + d.2) ∈ visited <;> simp [hb, hv]
  · simp [hb]

theorem foldl_nextMovesStep (size r c : Int) (visited : List String) (l : List (Int × Int)) :
    ∀ acc : List String, l.foldl (nextMovesStep size r c visited) acc
      = acc ++ l.filterMap (candidate size r c visited) := by
  induction l with
  | nil => intro acc; simp
  | cons d l ih =>
    intro acc
    rw [List.foldl_cons, ih, nextMovesStep_eq]
    cases h : candidate size r c visited d <;> simp [List.filterMap_cons, h]

theorem computeNextMoves_eq (size r c : Int) (visited : List String) :
    computeNextMoves size r c visited = deltas.filterMap (candidate size r c visited) := by
  unfold computeNextMoves
  rw [foldl_nextMovesStep]; simp

theorem mem_computeNextMoves (size r c : Int) (visited : List String) (k : String) :
    k ∈ computeNextMoves size r c visited ↔
      ∃ dr dc, knightOffset dr dc ∧ k = keyOf (r + dr) (c + dc) ∧
        onBoard size (r + dr) (c + dc) ∧ k ∉ visited := by
  rw [computeNextMoves_eq, List.mem_filterMap]
  constructor
  · rintro ⟨⟨dr, dc⟩, hd, hc⟩
    refine ⟨dr, dc, (mem_deltas_iff dr dc).1 hd, ?_⟩
    unfold candidate at hc
    split at hc
    · rename_i h
      simp only [Option.some.injEq] at hc
      subst hc
      exact ⟨rfl, h.1, h.2⟩
    · simp at hc
  · rintro ⟨dr, dc, hd, hk, hb, hv⟩
    refine ⟨(dr, dc), (mem_deltas_iff dr dc).2 hd, ?_⟩
    subst hk
    unfold candidate
    rw [if_pos ⟨hb, hv⟩]

theorem keyOf_mem_computeNextMoves (size r c : Int) (visited : List String) (r' c' : Int)
    (h : keyOf r' c' ∈ computeNextMoves size r c visited) :
    knightOffset (r' - r) (c' - c) ∧ onBoard size r' c' ∧ keyOf r' c' ∉ visited := by
  obtain ⟨dr, dc, hd, hk, hb, hv⟩ := (mem_computeNextMoves _ _ _ _ _).1 h
  obtain ⟨h1, h2⟩ := keyOf_inj hk
  subst h1; subst h2
  refine ⟨?_, hb, hv⟩
  have e1 : r + dr - r = dr := by omega
  have e2 : c + dc - c = dc := by omega
  rw [e1, e2]; exact hd

/-- With exact sums, for every integer size, square and visited set: a key is in the result
of `computeNextMoves` iff it is the key of the square reached by one of the eight knight
offsets, that square is on the board, and the key is not visited; the result contains
neither the key of the square itself nor the key of a square outside the board. -/
theorem computeNextMoves_exact_spec (size r c : Int) (visited : List String) :
    (∀ k : String, k ∈ computeNextMoves size r c visited ↔
      ∃ dr dc : Int, knightOffset dr dc ∧ k = keyOf (r + dr) (c + dc) ∧
        (0 ≤ r + dr ∧ r + dr < size ∧ 0 ≤ c + dc ∧ c + dc < size) ∧ k ∉ visited) ∧
    keyOf r c ∉ computeNextMoves size r c visited ∧
    (∀ r' c' : Int, keyOf r' c' ∈ computeNextMoves size r c visited →
      0 ≤ r' ∧ r' < size ∧ 0 ≤ c' ∧ c' < size) := by
  refine ⟨fun k => mem_computeNextMoves size r c visited k, ?_, ?_⟩
  · intro h
    have := (keyOf_mem_computeNextMoves _ _ _ _ _ _ h).1
    simp [knightOffset] at this
  · intro r' c' h
    exact (keyOf_mem_computeNextMoves _ _ _ _ _ _ h).2.1

/-! ## Binary64 sums -/

theorem f64Quantum_pos (fuel : Nat) : ∀ n : Nat, 0 < f64Quantum fuel n := by
  induction fuel with
  | zero => intro n; simp [f64Quantum]
  | succ fuel ih =>
    intro n
    unfold f64Quantum
    split
    · exact Nat.one_pos
    · have := ih (n / 2); omega

theorem f64Quantum_small (fuel n : Nat) (h : n < 9007199254740992) :
    f64Quantum fuel n = 1 := by
  cases fuel with
  | zero => rfl
  | succ fuel => unfold f64Quantum; rw [if_pos h]

theorem f64Quantum_two_le (fuel n : Nat) (h : 9007199254740992 ≤ n) :
    2 ≤ f64Quantum (fuel + 1) n := by
  unfold f64Quantum
  rw [if_neg (by omega)]
  have := f64Quantum_pos fuel (n / 2)
  omega

theorem f64Quantum_mul_le (fuel : Nat) :
    ∀ n : Nat, 4503599627370496 ≤ n → 4503599627370496 * f64Quantum fuel n ≤ n := by
  induction fuel with
  | zero => intro n h; simp only [f64Quantum]; omega
  | succ fuel ih =>
    intro n h
    unfold f64Quantum
    by_cases hn : n < 9007199254740992
    · rw [if_pos hn]; omega
    · rw [if_neg hn]
      have := ih (n / 2) (by omega)
      omega

theorem f64RoundNat_ge (n : Nat) :
    n / f64Quantum 971 n * f64Quantum 971 n ≤ f64RoundNat n := by
  have h1 : n / f64Quantum 971 n * f64Quantum 971 n
      ≤ (n / f64Quantum 971 n + 1) * f64Quantum 971 n :=
    Nat.mul_le_mul_right _ (Nat.le_succ _)
  unfold f64RoundNat
  simp only
  split
  · exact Nat.le_refl _
  · split
    · exact h1
    · split
      · exact Nat.le_refl _
      · exact h1

theorem f64RoundNat_small (n : Nat) (h : n ≤ 9007199254740992) : f64RoundNat n = n := by
  by_cases hn : n < 9007199254740992
  · unfold f64RoundNat
    simp [f64Quantum_small 971 n hn, Nat.mod_one]
  · have : n = 9007199254740992 := by omega
    subst this
    decide

theorem f64RoundNat_large (n : Nat) (h : 9007199254740992 ≤ n) :
    9007199254740992 ≤ f64RoundNat n := by
  have hq2 : 2 ≤ f64Quantum 971 n := f64Quantum_two_le 970 n h
  have hmul := f64Quantum_mul_le 971 n (by omega)
  have hm : 4503599627370496 ≤ n / f64Quantum 971 n :=
    (Nat.le_div_iff_mul_le (by omega)).2 hmul
  have h1 : 4503599627370496 * 2 ≤ n / f64Quantum 971 n * f64Quantum 971 n :=
    Nat.mul_le_mul hm hq2
  have h2 := f64RoundNat_ge n
  omega

theorem f64RoundNat_pos (n : Nat) (h : 0 < n) : 0 < f64RoundNat n := by
  by_cases hn : n ≤ 9007199254740992
  · rw [f64RoundNat_small n hn]; exact h
  · have := f64RoundNat_large n (by omega)
    omega

theorem f64Round_exact (x : Int) (h1 : -9007199254740992 ≤ x) (h2 : x ≤ 9007199254740992) :
    f64Round x = x := by
  unfold f64Round
  by_cases hx : 0 ≤ x
  · rw [if_pos hx, f64RoundNat_small _ (by omega)]
    omega
  · rw [if_neg hx, f64RoundNat_small _ (by omega)]
    omega

theorem f64Round_neg (x : Int) (h : x < 0) : f64Round x < 0 := by
  unfold f64Round
  rw [if_neg (by omega)]
  have := f64RoundNat_pos (-x).toNat (by omega)
  omega

theorem f64Round_large (x : Int) (h : 9007199254740992 ≤ x) :
    9007199254740992 ≤ f64Round x := by
  unfold f64Round
  rw [if_pos (by omega)]
  have := f64RoundNat_large x.toNat (by omega)
  omega

theorem f64Round_cases (size x : Int) (h : size ≤ 9007199254740992 ∨ x ≤ 9007199254740992) :
    f64Round x = x ∨
      (¬ (0 ≤ x ∧ x < size) ∧ ¬ (0 ≤ f64Round x ∧ f64Round x < size)) := by
  by_cases hx : x < 0
  · have := f64Round_neg x hx
    exact Or.inr ⟨by omega, by omega⟩
  · by_cases hx2 : x ≤ 9007199254740992
    · exact Or.inl (f64Round_exact x (by omega) hx2)
    · have := f64Round_large x (by omega)
      exact Or.inr ⟨by omega, by omega⟩

theorem deltas_bound (d : Int × Int) (h : d ∈ deltas) :
    -2 ≤ d.1 ∧ d.1 ≤ 2 ∧ -2 ≤ d.2 ∧ d.2 ≤ 2 := by
  obtain ⟨dr, dc⟩ := d
  have := (mem_deltas_iff dr dc).1 h
  unfold knightOffset at this
  simp only
  omega

theorem nextMovesStepF64_eq (size r c : Int) (visited res : List String) (d : Int × Int)
    (hd : d ∈ deltas)
    (hb : size ≤ 9007199254740992 ∨ (r ≤ 9007199254740990 ∧ c ≤ 9007199254740990)) :
    nextMovesStepF64 size r c visited res d = nextMovesStep size r c visited res d := by
  obtain ⟨h1, h2, h3, h4⟩ := deltas_bound d hd
  have hr := f64Round_cases size (r + d.1) (by omega)
  have hc := f64Round_cases size (c + d.2) (by omega)
  unfold nextMovesStepF64 nextMovesStep
  simp only
  rcases hr with hr | ⟨hr1, hr2⟩
  · rcases hc with hc | ⟨hc1, hc2⟩
    · rw [hr, hc]
    · rw [if_neg (by omega), if_neg (by omega)]
  · rw [if_neg (by omega), if_neg (by omega)]

/-- Within the stated bound the loop with binary64 sums and the loop with exact sums return
the same list. -/
theorem computeNextMovesF64_eq (size r c : Int) (visited : List String)
    (hb : size ≤ 9007199254740992 ∨ (r ≤ 9007199254740990 ∧ c ≤ 9007199254740990)) :
    computeNextMovesF64 size r c visited = computeNextMoves size r c visited := by
  unfold computeNextMovesF64 computeNextMoves
  exact List.foldl_ext _ _ _ (fun res d hd => nextMovesStepF64_eq size r c visited res d hd hb)

/-- C1, amended. For every integer size and square `(r, c)` with `size ≤ 2^53`, or
`r ≤ 2^53 - 2` and `c ≤ 2^53 - 2`, and every visited set: a key is in the result of
`computeNextMoves` (with its binary64 sums) iff it is the key of the square reached by one
of the eight knight offsets, that square is on the board, and the key is not visited. In
particular the result contains neither the key of `(r, c)` itself nor the key of a square
outside the board. -/
theorem computeNextMovesF64_spec (size r c : Int) (visited : List String)
    (hb : size ≤ 9007199254740992 ∨ (r ≤ 9007199254740990 ∧ c ≤ 9007199254740990)) :
    (∀ k : String, k ∈ computeNextMovesF64 size r c visited ↔
      ∃ dr dc : Int, knightOffset dr dc ∧ k = keyOf (r + dr) (c + dc) ∧
        (0 ≤ r + dr ∧ r + dr < size ∧ 0 ≤ c + dc ∧ c + dc < size) ∧ k ∉ visited) ∧
    keyOf r c ∉ computeNextMovesF64 size r c visited ∧
    (∀ r' c' : Int, keyOf r' c' ∈ computeNextMovesF64 size r c visited →
      0 ≤ r' ∧ r' < size ∧ 0 ≤ c' ∧ c' < size) := by
  rw [computeNextMovesF64_eq size r c visited hb]
  refine ⟨fun k => mem_computeNextMoves size r c visited k, ?_, ?_⟩
  · intro h
    have := (keyOf_mem_computeNextMoves _ _ _ _ _ _ h).1
    simp [knightOffset] at this
  · intro r' c' h
    exact (keyOf_mem_computeNextMoves _ _ _ _ _ _ h).2.1

/-- C1, counterexample. Beyond `2^53` the sums of line 104 round. With `r = c = 2^54` on a
board of size `2^55` the result contains the key of `(r, c)` itself. With `r = 2^53`,
`c = 0` on a board of size `2^53 + 4` the result contains the key of `(2^53, 2)`, which is
the key of no knight move from `(r, c)`. -/
theorem computeNextMovesF64_rounds :
    keyOf 18014398509481984 18014398509481984
      ∈ computeNextMovesF64 36028797018963968 18014398509481984 18014398509481984 [] ∧
    computeNextMovesF64 9007199254740996 9007199254740992 0 [keyOf 9007199254740992 0]
      = ["9007199254740994,1", "9007199254740992,2", "9007199254740991,2",
         "9007199254740990,1"] ∧
    keyOf 9007199254740992 2
      ∈ computeNextMovesF64 9007199254740996 9007199254740992 0 [keyOf 9007199254740992 0] ∧
    ¬ ∃ dr dc : Int, knightOffset dr dc ∧
        keyOf 9007199254740992 2 = keyOf (9007199254740992 + dr) (0 + dc) := by
  refine ⟨by decide, by decide, by decide, ?_⟩
  rintro ⟨dr, dc, hk, he⟩
  obtain ⟨h1, h2⟩ := keyOf_inj he
  unfold knightOffset at hk
  omega

/-! ## The `Set` and `Map` operations -/

theorem setAdd_of_not_mem {s : List String} {k : String} (h : k ∉ s) :
    setAdd s k = s ++ [k] := by
  simp [setAdd, h]

theorem mem_setAdd (s : List String) (k k' : String) :
    k' ∈ setAdd s k ↔ k' ∈ s ∨ k' = k := by
  unfold setAdd
  by_cases h : k ∈ s
  · rw [if_pos h]
    constructor
    · exact fun h' => Or.inl h'
    · rintro (h' | h')
      · exact h'
      · rw [h']; exact h
  · rw [if_neg h]; simp

theorem setDelete_snoc {s : List String} {k : String} (h : k ∉ s) :
    setDelete (s ++ [k]) k = s := by
  unfold setDelete
  rw [List.filter_append]
  have h1 : List.filter (fun x => decide (x ≠ k)) s = s := by
    rw [List.filter_eq_self]
    intro a ha
    have : a ≠ k := fun e => h (e ▸ ha)
    simpa using this
  rw [h1]; simp

theorem indexFrom_snoc (l : List String) (k : String) :
    ∀ n : Nat, indexFrom n (l ++ [k]) = indexFrom n l ++ [(k, n + l.length)] := by
  induction l with
  | nil => intro n; simp [indexFrom]
  | cons a l ih =>
    intro n
    show (a, n) :: indexFrom (n + 1) (l ++ [k])
      = (a, n) :: indexFrom (n + 1) l ++ [(k, n + (l.length + 1))]
    have : n + 1 + l.length = n + (l.length + 1) := by omega
    rw [ih (n + 1), this]; rfl

theorem length_indexFrom (l : List String) : ∀ n : Nat, (indexFrom n l).length = l.length := by
  induction l with
  | nil => intro n; rfl
  | cons a l ih => intro n; simp [indexFrom, ih]

theorem map_fst_indexFrom (l : List String) :
    ∀ n : Nat, (indexFrom n l).map Prod.fst = l := by
  induction l with
  | nil => intro n; rfl
  | cons a l ih => intro n; simp [indexFrom, ih]

theorem fst_mem_of_mem_indexFrom {l : List String} {n : Nat} {e : String × Nat}
    (h : e ∈ indexFrom n l) : e.1 ∈ l := by
  have : e.1 ∈ (indexFrom n l).map Prod.fst := List.mem_map_of_mem _ h
  rwa [map_fst_indexFrom] at this

theorem mapSet_indexFrom {l : List String} {k : String} (h : k ∉ l) (n v : Nat) :
    mapSet (indexFrom n l) k v = indexFrom n l ++ [(k, v)] := by
  unfold mapSet
  have : (indexFrom n l).any (fun e => decide (e.1 = k)) = false := by
    rw [List.any_eq_false]
    intro e he
    have hne : e.1 ≠ k := fun e' => h (e' ▸ fst_mem_of_mem_indexFrom he)
    simpa using hne
  rw [this]; simp

theorem mapDelete_indexFrom_snoc {l : List String} {k : String} (h : k ∉ l) (n v : Nat) :
    mapDelete (indexFrom n l ++ [(k, v)]) k = indexFrom n l := by
  unfold mapDelete
  rw [List.filter_append]
  have h1 : List.filter (fun e : String × Nat => decide (e.1 ≠ k)) (indexFrom n l)
      = indexFrom n l := by
    rw [List.filter_eq_self]
    intro e he
    have hne : e.1 ≠ k := fun e' => h (e' ▸ fst_mem_of_mem_indexFrom he)
    simpa using hne
  rw [h1]; simp

theorem mapGet_cons (e : String × Nat) (m : List (String × Nat)) (k : String) :
    mapGet (e :: m) k = if e.1 = k then some e.2 else mapGet m k := by
  unfold mapGet
  by_cases h : e.1 = k <;> simp [List.find?_cons, h]

theorem mapGet_map_update (k : String) (v : Nat) (k' : String) (m : List (String × Nat)) :
    mapGet (m.map (fun e => if e.1 = k then (k, v) else e)) k'
      = if k' = k then (if m.any (fun e => decide (e.1 = k)) then some v else none)
        else mapGet m k' := by
  induction m with
  | nil => simp [mapGet]
  | cons e m ih =>
    rw [List.map_cons, mapGet_cons, ih, mapGet_cons, List.any_cons]
    by_cases h1 : e.1 = k
    · by_cases h2 : k' = k
      · simp [h1, h2]
      · have h3 : ¬ k = k' := fun h => h2 h.symm
        have h4 : ¬ e.1 = k' := by rw [h1]; exact h3
        simp [h1, h2, h3, h4]
    · by_cases h2 : k' = k
      · subst h2
        simp only [h1, if_false, if_true, decide_False, Bool.false_or]
      · simp [h1, h2]

theorem mapGet_append_single (k : String) (v : Nat) (k' : String) (m : List (String × Nat))
    (h : m.any (fun e => decide (e.1 = k)) = false) :
    mapGet (m ++ [(k, v)]) k' = if k' = k then some v else mapGet m k' := by
  induction m with
  | nil =>
    by_cases h2 : k' = k
    · simp [mapGet, h2]
    · have h3 : ¬ k = k' := fun h => h2 h.symm
      simp [mapGet, h2, h3]
  | cons e m ih =>
    rw [List.any_cons, Bool.or_eq_false_iff] at h
    have h1 : ¬ e.1 = k := by simpa using h.1
    rw [List.cons_append, mapGet_cons, ih h.2, mapGet_cons]
    by_cases h2 : k' = k
    · subst h2
      simp [h1]
    · simp [h2]

theorem mapGet_mapSet (m : List (String × Nat)) (k : String) (v : Nat) (k' : String) :
    mapGet (mapSet m k v) k' = if k' = k then some v else mapGet m k' := by
  unfold mapSet
  by_cases h : m.any (fun e => decide (e.1 = k)) = true
  · rw [if_pos h, mapGet_map_update, if_pos h]
  · rw [if_neg h]
    exact mapGet_append_single k v k' m (Bool.eq_false_iff.2 h)

theorem mapGet_indexFrom (l : List String) :
    ∀ (n i : Nat) (h : i < l.length), l.Nodup → mapGet (indexFrom n l) (l.get ⟨i, h⟩)
      = some (n + i) := by
  induction l with
  | nil => intro n i h; simp at h
  | cons a l ih =>
    intro n i h hnd
    rw [List.nodup_cons] at hnd
    simp only [indexFrom]
    rw [mapGet_cons]
    cases i with
    | zero => simp
    | succ i =>
      have hi : i < l.length := by simpa using h
      have hmem : l.get ⟨i, hi⟩ ∈ l := List.get_mem l i hi
      have hne : ¬ a = l.get ⟨i, hi⟩ := fun e => hnd.1 (e ▸ hmem)
      have hget : (a :: l).get ⟨i + 1, h⟩ = l.get ⟨i, hi⟩ := rfl
      rw [hget, if_neg hne, ih (n + 1) i hi hnd.2]
      congr 1; omega

/-! ## The invariant holds in every reachable state -/

theorem inv_init (n : Int) : Inv (init n) := by
  constructor <;> simp [init, indexFrom]

theorem inv_reset (s : State) (clearSize : Bool) (sel : Int) : Inv (reset s clearSize sel) := by
  constructor <;> simp [reset, indexFrom]

theorem history_nil_of_current_none {s : State} (h : Inv s) (hc : s.current = none) :
    s.history = [] := by
  have := h.current_eq
  rw [hc] at this
  exact List.getLast?_eq_none_iff.1 this.symm

theorem visited_nil_of_current_none {s : State} (h : Inv s) (hc : s.current = none) :
    s.visited = [] := by
  rw [h.visited_eq, history_nil_of_current_none h hc]; rfl

theorem length_visited {s : State} (h : Inv s) : s.visited.length = s.history.length := by
  rw [h.visited_eq, List.length_map]

theorem placeOrMove_accept {s : State} {r c : Int}
    (hacc : s.current = none ∨ keyOf r c ∈ s.nextMoves) :
    placeOrMove s r c = (applyMove s r c, Feedback.rendered) := by
  unfold placeOrMove
  cases hc : s.current with
  | none => rfl
  | some p =>
    rcases hacc with h | h
    · rw [hc] at h; cases h
    · simp [h]

theorem placeOrMove_reject {s : State} {r c : Int} {p : Pos} (hc : s.current = some p)
    (hk : keyOf r c ∉ s.nextMoves) :
    placeOrMove s r c = (s, Feedback.invalidMove) := by
  unfold placeOrMove
  rw [hc]
  simp [hk]

theorem accepted_fresh {s : State} (h : Inv s) {r c : Int}
    (hacc : s.current = none ∨ keyOf r c ∈ s.nextMoves) :
    keyOf r c ∉ s.visited ∧ (∀ p, s.current = some p → knightStep p { r := r, c := c }) ∧
      (∀ p, s.current = some p → onBoard s.size r c) := by
  cases hc : s.current with
  | none =>
    refine ⟨?_, ?_, ?_⟩
    · rw [visited_nil_of_current_none h hc]; simp
    · intro p hp; cases hp
    · intro p hp; cases hp
  | some q =>
    rcases hacc with h' | h'
    · rw [hc] at h'; cases h'
    · have hn := h.next_eq
      rw [hc] at hn
      simp only at hn
      rw [hn] at h'
      obtain ⟨h1, h2, h3⟩ := keyOf_mem_computeNextMoves _ _ _ _ _ _ h'
      refine ⟨h3, ?_, ?_⟩
      · intro p hp
        cases hp
        exact h1
      · intro p _
        exact h2

theorem applyMove_eq {s : State} (h : Inv s) (r c : Int) (hk : keyOf r c ∉ s.visited) :
    applyMove s r c =
      { size := s.size
        current := some { r := r, c := c }
        history := s.history ++ [{ r := r, c := c }]
        visited := s.visited ++ [keyOf r c]
        moveIndex := s.moveIndex ++ [(keyOf r c, s.history.length + 1)]
        nextMoves := computeNextMoves s.size r c (s.visited ++ [keyOf r c]) } := by
  unfold applyMove
  simp only [setAdd_of_not_mem hk, List.length_append, List.length_singleton]
  rw [h.index_eq, mapSet_indexFrom hk]

theorem inv_applyMove {s : State} (h : Inv s) (r c : Int) (hk : keyOf r c ∉ s.visited)
    (hstep : ∀ p, s.current = some p → knightStep p { r := r, c := c }) :
    Inv (applyMove s r c) := by
  rw [applyMove_eq h r c hk]
  constructor
  · simp [h.visited_eq.symm, posKey]
  · simp only
    rw [List.nodup_append]
    refine ⟨h.nodup, List.nodup_singleton _, ?_⟩
    intro a ha hb
    rw [List.mem_singleton] at hb
    exact hk (hb ▸ ha)
  · simp only
    rw [indexFrom_snoc, ← h.index_eq, length_visited h, Nat.add_comm]
  · simp
  · simp only
    refine List.Chain'.append h.chain (List.chain'_singleton _) ?_
    intro x hx y hy
    simp only [List.head?_cons, Option.mem_def, Option.some.injEq] at hy
    subst hy
    apply hstep
    rw [h.current_eq]; exact hx
  · simp

theorem inv_placeOrMove {s : State} (h : Inv s) (r c : Int) : Inv (placeOrMove s r c).1 := by
  by_cases hacc : s.current = none ∨ keyOf r c ∈ s.nextMoves
  · rw [placeOrMove_accept hacc]
    obtain ⟨h1, h2, _⟩ := accepted_fresh h hacc
    exact inv_applyMove h r c h1 h2
  · rw [not_or] at hacc
    obtain ⟨p, hp⟩ := Option.ne_none_iff_exists'.1 hacc.1
    rw [placeOrMove_reject hp hacc.2]
    exact h

theorem undo_eq {s : State} (h : Inv s) (L : List Pos) (b : Pos)
    (hh : s.history = L ++ [b]) :
    undo s =
      { size := s.size
        current := L.getLast?
        history := L
        visited := L.map posKey
        moveIndex := indexFrom 1 (L.map posKey)
        nextMoves :=
          match L.getLast? with
          | none => []
          | some p => computeNextMoves s.size p.r p.c (L.map posKey) } := by
  have hv : s.visited = L.map posKey ++ [posKey b] := by
    rw [h.visited_eq, hh]; simp
  have hnd : posKey b ∉ L.map posKey := by
    have := h.nodup
    rw [hv, List.nodup_append] at this
    intro hmem
    exact this.2.2 hmem (List.mem_singleton_self _)
  have hm : s.moveIndex = indexFrom 1 (L.map posKey) ++ [(posKey b, 1 + (L.map posKey).length)] := by
    rw [h.index_eq, hv, indexFrom_snoc]
  have hlen : ¬ (s.history.length = 0) := by rw [hh]; simp
  unfold undo
  rw [if_neg hlen]
  simp only [hh, List.getLast?_concat, List.dropLast_concat]
  have e1 : setDelete s.visited (keyOf b.r b.c) = L.map posKey := by
    rw [hv]; exact setDelete_snoc hnd
  have e2 : mapDelete s.moveIndex (keyOf b.r b.c) = indexFrom 1 (L.map posKey) := by
    rw [hm]; exact mapDelete_indexFrom_snoc hnd _ _
  rw [e1, e2]
  cases L.getLast? <;> rfl

theorem inv_undo {s : State} (h : Inv s) : Inv (undo s) := by
  rcases List.eq_nil_or_concat s.history with hnil | ⟨L, b, hh⟩
  · have : undo s = s := by
      unfold undo
      rw [if_pos (by rw [hnil]; rfl)]
    rw [this]; exact h
  · rw [List.concat_eq_append] at hh
    rw [undo_eq h L b hh]
    have hv : s.visited = L.map posKey ++ [posKey b] := by
      rw [h.visited_eq, hh]; simp
    constructor
    · rfl
    · have := h.nodup
      rw [hv, List.nodup_append] at this
      exact this.1
    · rfl
    · rfl
    · have := h.chain
      rw [hh] at this
      exact List.Chain'.left_of_append this
    · rfl

theorem Reachable.inv {s : State} (h : Reachable s) : Inv s := by
  induction h with
  | init n => exact inv_init n
  | place s r c _ ih => exact inv_placeOrMove ih r c
  | undo s _ ih => exact inv_undo ih
  | reset s b sel _ _ => exact inv_reset s b sel
  | sizeChange s sel _ _ => exact inv_reset _ true sel

theorem ReachableOn.reachable {s : State} (h : ReachableOn s) : Reachable s := by
  induction h with
  | init n => exact Reachable.init n
  | place s r c _ _ ih => exact Reachable.place s r c ih
  | undo s _ ih => exact Reachable.undo s ih
  | reset s b sel _ ih => exact Reachable.reset s b sel ih
  | sizeChange s sel _ ih => exact Reachable.sizeChange s sel ih

/-! ## Placement, moves and undo -/

/-- C2. Whenever `placeOrMove(r, c)` is accepted (current is unset, or the key of `(r, c)`
is in `nextMoves`): the call re-renders, current becomes `(r, c)`, history gets `(r, c)`
appended, visited gets the key added, `moveIndex` maps the key to the new history length
and is otherwise unchanged (the number is 1 when history was empty, which is the case for
every placement with current unset in a reachable state),
`nextMoves` is `computeNextMoves` on the new visited set, and size is unchanged. -/
theorem placeOrMove_accepted (s : State) (r c : Int)
    (hacc : s.current = none ∨ keyOf r c ∈ s.nextMoves) :
    (placeOrMove s r c).2 = Feedback.rendered ∧
    (placeOrMove s r c).1.current = some { r := r, c := c } ∧
    (placeOrMove s r c).1.history = s.history ++ [{ r := r, c := c }] ∧
    (placeOrMove s r c).1.visited = setAdd s.visited (keyOf r c) ∧
    (∀ k, k ∈ (placeOrMove s r c).1.visited ↔ k ∈ s.visited ∨ k = keyOf r c) ∧
    (placeOrMove s r c).1.moveIndex
      = mapSet s.moveIndex (keyOf r c) (placeOrMove s r c).1.history.length ∧
    (∀ k, mapGet (placeOrMove s r c).1.moveIndex k
      = if k = keyOf r c then some (s.history.length + 1) else mapGet s.moveIndex k) ∧
    (s.history = [] → mapGet (placeOrMove s r c).1.moveIndex (keyOf r c) = some 1) ∧
    (Reachable s → s.current = none →
      mapGet (placeOrMove s r c).1.moveIndex (keyOf r c) = some 1) ∧
    (placeOrMove s r c).1.nextMoves
      = computeNextMoves s.size r c (placeOrMove s r c).1.visited ∧
    (placeOrMove s r c).1.size = s.size := by
  rw [placeOrMove_accept hacc]
  have e : (applyMove s r c).moveIndex
      = mapSet s.moveIndex (keyOf r c) (s.history.length + 1) := by
    simp [applyMove]
  refine ⟨rfl, rfl, rfl, rfl, ?_, rfl, ?_, ?_, ?_, rfl, rfl⟩
  · intro k
    exact mem_setAdd s.visited (keyOf r c) k
  · intro k
    show mapGet (applyMove s r c).moveIndex k = _
    rw [e, mapGet_mapSet]
  · intro hnil
    show mapGet (applyMove s r c).moveIndex (keyOf r c) = _
    rw [e, mapGet_mapSet, if_pos rfl, hnil]
    rfl
  · intro hr hc
    show mapGet (applyMove s r c).moveIndex (keyOf r c) = _
    rw [e, mapGet_mapSet, if_pos rfl, history_nil_of_current_none hr.inv hc]
    rfl

/-- C3. When current is set and the key of `(r, c)` is not in `nextMoves`, `placeOrMove`
reports an invalid move and returns the state unchanged in every field. -/
theorem placeOrMove_invalid (s : State) (r c : Int) (hc : s.current ≠ none)
    (hk : keyOf r c ∉ s.nextMoves) :
    (placeOrMove s r c).2 = Feedback.invalidMove ∧ (placeOrMove s r c).1 = s := by
  obtain ⟨p, hp⟩ := Option.ne_none_iff_exists'.1 hc
  rw [placeOrMove_reject hp hk]
  exact ⟨rfl, rfl⟩

/-- C4. In every reachable state, `undo` right after an accepted `placeOrMove` gives back
the state before the call, field by field. -/
theorem undo_placeOrMove (s : State) (r c : Int) (hr : Reachable s)
    (hacc : s.current = none ∨ keyOf r c ∈ s.nextMoves) :
    undo (placeOrMove s r c).1 = s := by
  have h := hr.inv
  obtain ⟨h1, h2, _⟩ := accepted_fresh h hacc
  have hi := inv_applyMove h r c h1 h2
  rw [placeOrMove_accept hacc]
  have hh : (applyMove s r c).history = s.history ++ [{ r := r, c := c }] := rfl
  rw [undo_eq hi s.history _ hh]
  have e1 := h.visited_eq
  have e2 := h.index_eq
  have e3 := h.current_eq
  have e4 := h.next_eq
  obtain ⟨size, current, history, visited, moveIndex, nextMoves⟩ := s
  simp only at e1 e2 e3 e4
  subst e1
  subst e2
  subst e3
  subst e4
  rfl

/-- C5. In every reachable state, history, visited and `moveIndex` have the same number of
entries (visited and the keys of `moveIndex` without repetition), and for every index `i`
the key of `history[i]` is in visited and `moveIndex` maps it to `i + 1`. -/
theorem lockstep (s : State) (hr : Reachable s) :
    s.history.length = s.visited.length ∧ s.visited.length = s.moveIndex.length ∧
    s.visited.Nodup ∧ (s.moveIndex.map Prod.fst).Nodup ∧
    ∀ (i : Nat) (h : i < s.history.length),
      posKey (s.history.get ⟨i, h⟩) ∈ s.visited ∧
      mapGet s.moveIndex (posKey (s.history.get ⟨i, h⟩)) = some (i + 1) := by
  have h := hr.inv
  refine ⟨(length_visited h).symm, ?_, h.nodup, ?_, ?_⟩
  · rw [h.index_eq, length_indexFrom]
  · rw [h.index_eq, map_fst_indexFrom]; exact h.nodup
  · intro i hi
    have hi' : i < s.visited.length := by rw [length_visited h]; exact hi
    have hget : s.visited.get ⟨i, hi'⟩ = posKey (s.history.get ⟨i, hi⟩) := by
      simp [h.visited_eq]
    refine ⟨?_, ?_⟩
    · rw [← hget]; exact List.get_mem _ _ _
    · rw [← hget, h.index_eq, mapGet_indexFrom s.visited 1 i hi' h.nodup, Nat.add_comm]

/-- C6. In every reachable state (size changes included) the cached `nextMoves` is fresh:
with current set it equals `computeNextMoves(size, current.r, current.c, visited)`, with
current unset it is empty. -/
theorem nextMoves_fresh (s : State) (hr : Reachable s) :
    (∀ p : Pos, s.current = some p →
      s.nextMoves = computeNextMoves s.size p.r p.c s.visited) ∧
    (s.current = none → s.nextMoves = []) := by
  have h := hr.inv.next_eq
  constructor
  · intro p hp
    rw [hp] at h; exact h
  · intro hp
    rw [hp] at h; exact h

theorem clampCell_onBoard (size fr fc : Int) (h : 1 ≤ size) :
    onBoard size (clampCell size fr) (clampCell size fc) := by
  unfold onBoard clampCell
  omega

/-- C10, amended. In every reachable state in which current is set, `placeOrMove` on a
square outside the board is reported invalid and leaves the state unchanged. -/
theorem offBoard_rejected (s : State) (r c : Int) (hr : Reachable s) (hc : s.current ≠ none)
    (hoff : ¬ (0 ≤ r ∧ r < s.size ∧ 0 ≤ c ∧ c < s.size)) :
    (placeOrMove s r c).2 = Feedback.invalidMove ∧ (placeOrMove s r c).1 = s := by
  obtain ⟨p, hp⟩ := Option.ne_none_iff_exists'.1 hc
  have hk : keyOf r c ∉ s.nextMoves := by
    intro hmem
    exact hoff ((accepted_fresh hr.inv (Or.inr hmem)).2.2 p hp)
  rw [placeOrMove_reject hp hk]
  exact ⟨rfl, rfl⟩

/-- C10, counterexample. On the empty board of size 5 the square `(-1, 7)` is outside the
board, yet `placeOrMove(-1, 7)` is accepted: the claim that every off-board call leaves
current, history, visited, `moveIndex` and `nextMoves` unchanged fails. -/
theorem offBoard_first_placement_accepted :
    ¬ (∀ (s : State) (r c : Int), Reachable s →
        ¬ (0 ≤ r ∧ r < s.size ∧ 0 ≤ c ∧ c < s.size) →
        (placeOrMove s r c).1.current = s.current ∧
        (placeOrMove s r c).1.history = s.history ∧
        (placeOrMove s r c).1.visited = s.visited ∧
        (placeOrMove s r c).1.moveIndex = s.moveIndex ∧
        (placeOrMove s r c).1.nextMoves = s.nextMoves) := by
  intro h
  have := (h (init 5) (-1) 7 (Reachable.init 5) (by decide)).1
  exact absurd this (by decide)

/-! ## States reached by playing on the board -/

theorem ReachableOn.onBoard_history {s : State} (h : ReachableOn s) :
    ∀ p ∈ s.history, onBoard s.size p.r p.c := by
  induction h with
  | init n => intro p hp; simp [KnightsTour.init] at hp
  | place s r c hr hb ih =>
    by_cases hacc : s.current = none ∨ keyOf r c ∈ s.nextMoves
    · rw [placeOrMove_accept hacc]
      intro p hp
      have hp' : p ∈ s.history ++ [{ r := r, c := c }] := hp
      rcases List.mem_append.1 hp' with h1 | h1
      · exact ih p h1
      · rw [List.mem_singleton] at h1
        subst h1
        exact hb
    · rw [not_or] at hacc
      obtain ⟨q, hq⟩ := Option.ne_none_iff_exists'.1 hacc.1
      rw [placeOrMove_reject hq hacc.2]
      exact ih
  | undo s hr ih =>
    rcases List.eq_nil_or_concat s.history with hnil | ⟨L, b, hh⟩
    · have : KnightsTour.undo s = s := by
        unfold KnightsTour.undo
        rw [if_pos (by rw [hnil]; rfl)]
      rw [this]; exact ih
    · rw [List.concat_eq_append] at hh
      rw [undo_eq hr.reachable.inv L b hh]
      intro p hp
      have hp' : p ∈ L := hp
      exact ih p (by rw [hh]; exact List.mem_append_left _ hp')
  | reset s b sel _ _ => intro p hp; simp [KnightsTour.reset] at hp
  | sizeChange s sel _ _ => intro p hp; simp [onSizeChange, startNew, KnightsTour.reset] at hp

theorem nodup_history {s : State} (h : Inv s) : s.history.Nodup := by
  have := h.nodup
  rw [h.visited_eq] at this
  exact List.Nodup.of_map _ this

theorem board_pigeonhole (n : Int) (hn : 0 ≤ n) (l : List Pos) (hnd : l.Nodup)
    (hb : ∀ p ∈ l, onBoard n p.r p.c) :
    (l.length : Int) ≤ n * n ∧
    ((l.length : Int) = n * n →
      ∀ r c : Int, onBoard n r c → ({ r := r, c := c } : Pos) ∈ l) := by
  classical
  have hf : Function.Injective (fun p : Pos => (p.r, p.c)) := by
    intro p q h
    cases p; cases q
    simp only [Prod.mk.injEq] at h
    rw [h.1, h.2]
  have hF : ((l.map (fun p : Pos => (p.r, p.c))).toFinset).card = l.length := by
    rw [List.toFinset_card_of_nodup (hnd.map hf), List.length_map]
  have hB : (Finset.Ico (0 : Int) n ×ˢ Finset.Ico (0 : Int) n).card = n.toNat * n.toNat := by
    simp [Finset.card_product]
  have hsub : (l.map (fun p : Pos => (p.r, p.c))).toFinset
      ⊆ Finset.Ico (0 : Int) n ×ˢ Finset.Ico (0 : Int) n := by
    intro x hx
    simp only [List.mem_toFinset, List.mem_map] at hx
    obtain ⟨p, hp, rfl⟩ := hx
    have := hb p hp
    unfold onBoard at this
    simp only [Finset.mem_product, Finset.mem_Ico]
    omega
  have hle := Finset.card_le_card hsub
  have hcast : ((n.toNat : Nat) : Int) = n := Int.toNat_of_nonneg hn
  have hBZ : (((Finset.Ico (0 : Int) n ×ˢ Finset.Ico (0 : Int) n).card : Nat) : Int)
      = n * n := by
    rw [hB]; push_cast; rw [hcast]
  constructor
  · rw [← hF, ← hBZ]
    exact_mod_cast hle
  · intro heq r c hrc
    have hcard : (Finset.Ico (0 : Int) n ×ˢ Finset.Ico (0 : Int) n).card
        ≤ ((l.map (fun p : Pos => (p.r, p.c))).toFinset).card := by
      rw [hF]
      have : (((Finset.Ico (0 : Int) n ×ˢ Finset.Ico (0 : Int) n).card : Nat) : Int)
          = (l.length : Int) := by rw [hBZ, heq]
      exact le_of_eq (by exact_mod_cast this)
    have hFB := Finset.eq_of_subset_of_card_le hsub hcard
    have hmem : (r, c) ∈ (l.map (fun p : Pos => (p.r, p.c))).toFinset := by
      rw [hFB]
      unfold onBoard at hrc
      simp only [Finset.mem_product, Finset.mem_Ico]
      omega
    simp only [List.mem_toFinset, List.mem_map, Prod.mk.injEq] at hmem
    obtain ⟨p, hp, h1, h2⟩ := hmem
    cases p
    simp only at h1 h2
    subst h1; subst h2
    exact hp

theorem visited_le_board {s : State} (hr : ReachableOn s) (hn : 0 ≤ s.size) :
    (s.visited.length : Int) ≤ s.size * s.size := by
  have h := hr.reachable.inv
  rw [length_visited h]
  exact (board_pigeonhole s.size hn s.history (nodup_history h) hr.onBoard_history).1

theorem current_ne_none_of_won {s : State} (hr : ReachableOn s) (hn : 1 ≤ s.size)
    (hw : (s.visited.length : Int) = s.size * s.size) : s.current ≠ none := by
  intro hc
  rw [visited_nil_of_current_none hr.reachable.inv hc] at hw
  simp only [List.length_nil, Nat.cast_zero] at hw
  nlinarith

theorem renderStatus_won {s : State} (hc : s.current ≠ none)
    (hw : (s.visited.length : Int) = s.size * s.size) : renderStatus s = Status.won := by
  obtain ⟨p, hp⟩ := Option.ne_none_iff_exists'.1 hc
  simp [renderStatus, hp, hw]

/-- C7. For a state reached by playing on the board, with size at least 1, the status
chosen by the branch chain of `render` agrees with the specification's four conditions:
each status is chosen exactly when its condition holds, exactly one of the four conditions
holds, Won is chosen iff `visited.size = n²`, and Stuck iff current is set,
`visited.size < n²` and `nextMoves` is empty. -/
theorem status_agrees (s : State) (hr : ReachableOn s) (hn : 1 ≤ s.size) :
    (renderStatus s = Status.empty ↔ specEmpty s) ∧
    (renderStatus s = Status.inProgress ↔ specInProgress s) ∧
    (renderStatus s = Status.won ↔ specWon s) ∧
    (renderStatus s = Status.stuck ↔ specStuck s) ∧
    (specEmpty s ∨ specInProgress s ∨ specWon s ∨ specStuck s) ∧
    ¬ (specEmpty s ∧ specInProgress s) ∧ ¬ (specEmpty s ∧ specWon s) ∧
    ¬ (specEmpty s ∧ specStuck s) ∧ ¬ (specInProgress s ∧ specWon s) ∧
    ¬ (specInProgress s ∧ specStuck s) ∧ ¬ (specWon s ∧ specStuck s) ∧
    (renderStatus s = Status.won ↔ (s.visited.length : Int) = s.size * s.size) ∧
    (renderStatus s = Status.stuck ↔
      s.current ≠ none ∧ (s.visited.length : Int) < s.size * s.size ∧ s.nextMoves = []) := by
  have hle := visited_le_board hr (by omega)
  have hwon : (s.visited.length : Int) = s.size * s.size → s.current ≠ none :=
    current_ne_none_of_won hr hn
  unfold specEmpty specInProgress specWon specStuck renderStatus
  cases hc : s.current with
  | none =>
    have hne : ¬ ((s.visited.length : Int) = s.size * s.size) := fun h => hwon h hc
    simp [hne]
  | some p =>
    by_cases hw : (s.visited.length : Int) = s.size * s.size
    · simp [hw]
    · have hlt : (s.visited.length : Int) < s.size * s.size := lt_of_le_of_ne hle hw
      by_cases hm : s.nextMoves = []
      · simp [hw, hm, hlt]
      · simp [hw, hm, hlt]

/-- C8. For a state reached by playing on the board, with size at least 1: if
`visited.size = n²` then the status is Won and history is a complete Knight's Tour: it has
`n²` entries, all on the board, every board square occurs in it exactly once, and every two
consecutive entries are a knight offset apart. -/
theorem won_is_tour (s : State) (hr : ReachableOn s) (hn : 1 ≤ s.size)
    (hw : (s.visited.length : Int) = s.size * s.size) :
    renderStatus s = Status.won ∧
    (s.history.length : Int) = s.size * s.size ∧
    (∀ p ∈ s.history, 0 ≤ p.r ∧ p.r < s.size ∧ 0 ≤ p.c ∧ p.c < s.size) ∧
    (∀ r c : Int, 0 ≤ r ∧ r < s.size ∧ 0 ≤ c ∧ c < s.size →
      s.history.count { r := r, c := c } = 1) ∧
    List.Chain' (fun p q => knightOffset (q.r - p.r) (q.c - p.c)) s.history := by
  have h := hr.reachable.inv
  have hlen : (s.history.length : Int) = s.size * s.size := by
    rw [← length_visited h]; exact hw
  refine ⟨renderStatus_won (current_ne_none_of_won hr hn hw) hw, hlen,
    hr.onBoard_history, ?_, h.chain⟩
  intro r c hrc
  have hmem := (board_pigeonhole s.size (by omega) s.history (nodup_history h)
    hr.onBoard_history).2 hlen r c hrc
  exact List.count_eq_one_of_mem (nodup_history h) hmem

/-! ## Full tours -/

theorem playAll_reachableOn (sq : List (Int × Int)) :
    ∀ s s' : State, ReachableOn s → (∀ p ∈ sq, onBoard s.size p.1 p.2) →
      playAll s sq = some s' → ReachableOn s' ∧ s'.size = s.size := by
  induction sq with
  | nil =>
    intro s s' hr _ hp
    simp only [playAll, Option.some.injEq] at hp
    subst hp
    exact ⟨hr, rfl⟩
  | cons x rest ih =>
    intro s s' hr hb hp
    obtain ⟨r, c⟩ := x
    have hrc : onBoard s.size r c := hb (r, c) (List.mem_cons_self _ _)
    have hstep := ReachableOn.place s r c hr hrc
    by_cases hacc : s.current = none ∨ keyOf r c ∈ s.nextMoves
    · rw [placeOrMove_accept hacc] at hstep
      simp only [playAll, placeOrMove_accept hacc] at hp
      have hsz : (applyMove s r c).size = s.size := rfl
      have := ih (applyMove s r c) s' hstep
        (fun p hp' => by rw [hsz]; exact hb p (List.mem_cons_of_mem _ hp')) hp
      exact ⟨this.1, by rw [this.2, hsz]⟩
    · rw [not_or] at hacc
      obtain ⟨q, hq⟩ := Option.ne_none_iff_exists'.1 hacc.1
      simp [playAll, placeOrMove_reject hq hacc.2] at hp

theorem playFrom_reachableOn (sq : List (Int × Int)) :
    ∀ s : State, ReachableOn s → (∀ p ∈ sq, onBoard s.size p.1 p.2) →
      ReachableOn (playFrom s sq) := by
  induction sq with
  | nil => intro s hr _; exact hr
  | cons x rest ih =>
    intro s hr hb
    have hstep := ReachableOn.place s x.1 x.2 hr (hb x (List.mem_cons_self _ _))
    have hsz : (placeOrMove s x.1 x.2).1.size = s.size := by
      by_cases hacc : s.current = none ∨ keyOf x.1 x.2 ∈ s.nextMoves
      · rw [placeOrMove_accept hacc]; rfl
      · rw [not_or] at hacc
        obtain ⟨q, hq⟩ := Option.ne_none_iff_exists'.1 hacc.1
        rw [placeOrMove_reject hq hacc.2]
    exact ih _ hstep (fun p hp' => by rw [hsz]; exact hb p (List.mem_cons_of_mem _ hp'))

theorem chain_neighbour {α : Type} (R : α → α → Prop) :
    ∀ (l : List α) (p : α), List.Chain' R l → p ∈ l → 2 ≤ l.length →
      ∃ q ∈ l, R p q ∨ R q p := by
  intro l
  induction l with
  | nil => intro p _ hp; simp at hp
  | cons a l ih =>
    intro p hc hp hlen
    cases l with
    | nil => simp at hlen
    | cons b l =>
      rw [List.chain'_cons] at hc
      rcases List.mem_cons.1 hp with h1 | h1
      · subst h1
        exact ⟨b, by simp, Or.inl hc.1⟩
      · cases l with
        | nil =>
          rw [List.mem_singleton] at h1
          subst h1
          exact ⟨a, by simp, Or.inr hc.1⟩
        | cons d l =>
          obtain ⟨q, hq, hR⟩ := ih p hc.2 h1 (by simp)
          exact ⟨q, List.mem_cons_of_mem _ hq, hR⟩

theorem centre3_isolated (q : Pos) (hq : onBoard 3 q.r q.c) :
    ¬ (knightStep { r := 1, c := 1 } q ∨ knightStep q { r := 1, c := 1 }) := by
  unfold onBoard at hq
  unfold knightStep knightOffset
  simp only
  omega

/-- C9, counterexample. On a board of size 3 no sequence of accepted `placeOrMove` calls on
board squares, of any length, reaches `visited.size = 9`: the centre `(1, 1)` is no knight
move away from any square of the board. In particular there is no sequence of nine such
calls on nine distinct squares that ends Won. -/
theorem no_tour_size3 :
    ¬ ∃ sq : List (Int × Int),
        (∀ p ∈ sq, 0 ≤ p.1 ∧ p.1 < 3 ∧ 0 ≤ p.2 ∧ p.2 < 3) ∧
        ∃ s : State, playAll (init 3) sq = some s ∧ s.visited.length = 9 := by
  rintro ⟨sq, hb, s, hplay, hv⟩
  obtain ⟨hr, hsize⟩ := playAll_reachableOn sq (init 3) s (ReachableOn.init 3) hb hplay
  have hs3 : s.size = 3 := hsize
  have h := hr.reachable.inv
  have hlen : s.history.length = 9 := by rw [← length_visited h]; exact hv
  have hon := hr.onBoard_history
  rw [hs3] at hon
  have hmem := (board_pigeonhole 3 (by decide) s.history (nodup_history h) hon).2
    (by rw [hlen]; rfl) 1 1 (by decide)
  obtain ⟨q, hq, hR⟩ := chain_neighbour knightStep s.history _ h.chain hmem (by omega)
  exact centre3_isolated q (hon q hq) hR

/-- C9, amended. On a board of size 5 there is a full valid tour: `tour5` is a sequence of
25 `placeOrMove` calls on 25 pairwise distinct squares of the board, each accepted from the
empty state, after which `visited.size = 25` and the status is Won. -/
theorem tour5_won :
    tour5.length = 25 ∧ tour5.Nodup ∧
    (∀ p ∈ tour5, 0 ≤ p.1 ∧ p.1 < 5 ∧ 0 ≤ p.2 ∧ p.2 < 5) ∧
    ∃ s : State, playAll (init 5) tour5 = some s ∧ s.visited.length = 25 ∧
      renderStatus s = Status.won := by
  refine ⟨by decide, by decide, by decide, playFrom (init 5) tour5, ?_, ?_, ?_⟩
  · decide
  · decide
  · decide

/-! ## Concrete scenarios and instances -/

/-- Scenario A: size 5, place `(0, 0)`: the legal moves are `(2, 1)` and `(1, 2)`, in the
order of the offsets, and the status is InProgress. -/
theorem scenarioA :
    corner5.nextMoves = [keyOf 2 1, keyOf 1 2] ∧ renderStatus corner5 = Status.inProgress := by
  decide

/-- Scenario B: size 3, place the centre `(1, 1)`: no legal move, status Stuck. -/
theorem scenarioB : centre3.nextMoves = [] ∧ renderStatus centre3 = Status.stuck := by
  decide

/-- On size 3 an opening outside the board followed by the eight border squares is accepted
call by call and ends with `visited.size = 9` and status Won, although the centre was never
visited: this run is not a tour of the board. -/
theorem offBoardRun3_won :
    playAll (init 3) offBoardRun3 = some (playFrom (init 3) offBoardRun3) ∧
    (playFrom (init 3) offBoardRun3).visited.length = 9 ∧
    renderStatus (playFrom (init 3) offBoardRun3) = Status.won ∧
    ({ r := 1, c := 1 } : Pos) ∉ (playFrom (init 3) offBoardRun3).history := by
  decide

theorem reachable_corner5 : Reachable corner5 :=
  Reachable.place _ 0 0 (Reachable.init 5)

theorem reachable_twoMoves5 : Reachable twoMoves5 :=
  Reachable.place _ 2 1 reachable_corner5

/-- C1, amended, at a concrete input (scenario A): size 5, the corner `(0, 0)`, visited. -/
theorem computeNextMovesF64_spec_witness :
    ((5 : Int) ≤ 9007199254740992 ∨
      ((0 : Int) ≤ 9007199254740990 ∧ (0 : Int) ≤ 9007199254740990)) ∧
    keyOf 0 0 ∉ computeNextMovesF64 5 0 0 [keyOf 0 0] ∧
    (∀ r' c' : Int, keyOf r' c' ∈ computeNextMovesF64 5 0 0 [keyOf 0 0] →
      0 ≤ r' ∧ r' < 5 ∧ 0 ≤ c' ∧ c' < 5) :=
  ⟨Or.inl (by decide),
    (computeNextMovesF64_spec 5 0 0 [keyOf 0 0] (Or.inl (by decide))).2⟩

/-- C2 at a concrete input: from `corner5` the move to `(2, 1)` is accepted. -/
theorem placeOrMove_accepted_witness :
    (corner5.current = none ∨ keyOf 2 1 ∈ corner5.nextMoves) ∧
    (placeOrMove corner5 2 1).2 = Feedback.rendered ∧
    (placeOrMove corner5 2 1).1.current = some { r := 2, c := 1 } ∧
    (placeOrMove corner5 2 1).1.history = corner5.history ++ [{ r := 2, c := 1 }] ∧
    (placeOrMove corner5 2 1).1.visited = setAdd corner5.visited (keyOf 2 1) :=
  ⟨Or.inr (by decide),
    (placeOrMove_accepted corner5 2 1 (Or.inr (by decide))).1,
    (placeOrMove_accepted corner5 2 1 (Or.inr (by decide))).2.1,
    (placeOrMove_accepted corner5 2 1 (Or.inr (by decide))).2.2.1,
    (placeOrMove_accepted corner5 2 1 (Or.inr (by decide))).2.2.2.1⟩

/-- C3 at a concrete input: from `corner5` the call on `(4, 4)` is invalid. -/
theorem placeOrMove_invalid_witness :
    corner5.current ≠ none ∧ keyOf 4 4 ∉ corner5.nextMoves ∧
    (placeOrMove corner5 4 4).2 = Feedback.invalidMove ∧ (placeOrMove corner5 4 4).1 = corner5 :=
  ⟨by decide, by decide, placeOrMove_invalid corner5 4 4 (by decide) (by decide)⟩

/-- C4 at a concrete input (scenario D): place `(0, 0)`, move `(2, 1)`, undo. -/
theorem undo_placeOrMove_witness :
    Reachable corner5 ∧ (corner5.current = none ∨ keyOf 2 1 ∈ corner5.nextMoves) ∧
    undo (placeOrMove corner5 2 1).1 = corner5 :=
  ⟨reachable_corner5, Or.inr (by decide),
    undo_placeOrMove corner5 2 1 reachable_corner5 (Or.inr (by decide))⟩

/-- C5 at a concrete input: the state after two moves on size 5. -/
theorem lockstep_witness :
    Reachable twoMoves5 ∧
    twoMoves5.history.length = twoMoves5.visited.length ∧
    twoMoves5.visited.length = twoMoves5.moveIndex.length ∧
    twoMoves5.visited.Nodup ∧ (twoMoves5.moveIndex.map Prod.fst).Nodup ∧
    ∀ (i : Nat) (h : i < twoMoves5.history.length),
      posKey (twoMoves5.history.get ⟨i, h⟩) ∈ twoMoves5.visited ∧
      mapGet twoMoves5.moveIndex (posKey (twoMoves5.history.get ⟨i, h⟩)) = some (i + 1) :=
  ⟨reachable_twoMoves5, lockstep twoMoves5 reachable_twoMoves5⟩

/-- C6 at a concrete input: the state after two moves on size 5. -/
theorem nextMoves_fresh_witness :
    Reachable twoMoves5 ∧
    (∀ p : Pos, twoMoves5.current = some p →
      twoMoves5.nextMoves = computeNextMoves twoMoves5.size p.r p.c twoMoves5.visited) ∧
    (twoMoves5.current = none → twoMoves5.nextMoves = []) :=
  ⟨reachable_twoMoves5, nextMoves_fresh twoMoves5 reachable_twoMoves5⟩

/-- C7 at a concrete input (scenario B): the centre of the 3×3 board. -/
theorem status_agrees_witness :
    ReachableOn centre3 ∧ 1 ≤ centre3.size ∧
    (renderStatus centre3 = Status.stuck ↔ specStuck centre3) ∧
    (renderStatus centre3 = Status.won ↔ specWon centre3) :=
  ⟨ReachableOn.place _ 1 1 (ReachableOn.init 3) (by decide), by decide,
    (status_agrees centre3 (ReachableOn.place _ 1 1 (ReachableOn.init 3) (by decide))
      (by decide)).2.2.2.1,
    (status_agrees centre3 (ReachableOn.place _ 1 1 (ReachableOn.init 3) (by decide))
      (by decide)).2.2.1⟩

/-- C8 at a concrete input: the state after the 25 calls of `tour5` on size 5. -/
theorem won_is_tour_witness :
    ReachableOn (playFrom (init 5) tour5) ∧ 1 ≤ (playFrom (init 5) tour5).size ∧
    ((playFrom (init 5) tour5).visited.length : Int)
      = (playFrom (init 5) tour5).size * (playFrom (init 5) tour5).size ∧
    renderStatus (playFrom (init 5) tour5) = Status.won ∧
    ((playFrom (init 5) tour5).history.length : Int)
      = (playFrom (init 5) tour5).size * (playFrom (init 5) tour5).size :=
  ⟨playFrom_reachableOn tour5 (init 5) (ReachableOn.init 5) (by decide), by decide, by decide,
    (won_is_tour (playFrom (init 5) tour5)
      (playFrom_reachableOn tour5 (init 5) (ReachableOn.init 5) (by decide))
      (by decide) (by decide)).1,
    (won_is_tour (playFrom (init 5) tour5)
      (playFrom_reachableOn tour5 (init 5) (ReachableOn.init 5) (by decide))
      (by decide) (by decide)).2.1⟩

/-- C10, amended, at a concrete input: from `corner5` the call on `(-1, 7)` is invalid. -/
theorem offBoard_rejected_witness :
    Reachable corner5 ∧ corner5.current ≠ none ∧
    ¬ (0 ≤ (-1 : Int) ∧ (-1 : Int) < corner5.size ∧ 0 ≤ (7 : Int) ∧ (7 : Int) < corner5.size) ∧
    (placeOrMove corner5 (-1) 7).2 = Feedback.invalidMove ∧
    (placeOrMove corner5 (-1) 7).1 = corner5 :=
  ⟨reachable_corner5, by decide, by decide,
    offBoard_rejected corner5 (-1) 7 reachable_corner5 (by decide) (by decide)⟩

end KnightsTour
